import Mathlib

/-!
Verification development for the visit-scheduling engine of the
`tibbiyreja` repository (`src/processor.js`, served by `src/server.js`).

The engine consumes a population roster (rows with a parsed birth date and a
name cell) and a run configuration (`config.ranges`, `config.targetYear`,
`config.holidays`, `config.saturdayWorking`) and produces per-cohort
assigned/unplanned rows plus one consolidated plan.

Modelling conventions, each mirroring the JavaScript source:
* Calendar dates are proleptic-Gregorian triples `⟨year, month, day⟩` with
  `month ∈ 0..11` (dayjs convention) and `day ∈ 1..daysInMonth`.  dayjs
  stores a millisecond timestamp; we model the calendar-day part, which is
  the only part the engine's outputs observe (`valueOf` ordering on dates
  produced within one run agrees with calendar-day ordering, and output
  cells are rendered as `dd.mm.yyyy`).
* `dayjs()` (the current wall-clock date) is modelled by an explicit `now`
  parameter threaded into every function whose source calls `dayjs()`.
* dayjs setters clamp the day of month (`set month`/`set year` first set the
  day to 1, change the field, then restore `min(day, daysInMonth)`); the
  `add(k, "month")` operation is `set(month, month + k)`.
* Holiday strings `"YYYY-MM-DD"` compared via `format` are modelled as a
  list of dates with structural membership (the format is injective on
  calendar dates).
* The fractional month interval `12 / visitCount` multiplied by `v` and
  truncated by `Date.setMonth` is modelled by exact rational truncation
  `(12 * v) / visitCount` (natural-number division), the semantics the
  spec's §4.3 describes; IEEE-754 evaluation agrees except possibly in the
  final ulp of `v * (12 / visitCount)`.
-/

/-- A calendar date.  `month` is 0-based (dayjs convention: 0 = January),
`day` is 1-based. -/
structure Date where
  year : Nat
  month : Nat
  day : Nat
deriving DecidableEq, Repr

/-- Gregorian leap-year test. -/
def isLeap (y : Nat) : Bool :=
  (y % 4 == 0 && y % 100 != 0) || y % 400 == 0

/-- Number of days in a month (`m` 0-based); months beyond 11 are treated as
December (never reached by valid dates). -/
def daysInMonth (y m : Nat) : Nat :=
  match m with
  | 0 => 31
  | 1 => if isLeap y then 29 else 28
  | 2 => 31
  | 3 => 30
  | 4 => 31
  | 5 => 30
  | 6 => 31
  | 7 => 31
  | 8 => 30
  | 9 => 31
  | 10 => 30
  | _ => 31

/-- Days in the year `y` before the first day of month `m` (0-based). -/
def daysBeforeMonth (y m : Nat) : Nat :=
  let l : Nat := if isLeap y then 1 else 0
  match m with
  | 0 => 0
  | 1 => 31
  | 2 => 59 + l
  | 3 => 90 + l
  | 4 => 120 + l
  | 5 => 151 + l
  | 6 => 181 + l
  | 7 => 212 + l
  | 8 => 243 + l
  | 9 => 273 + l
  | 10 => 304 + l
  | _ => 334 + l

/-- Days strictly before January 1 of year `y`, counting from year 0
(proleptic Gregorian). -/
def daysBeforeYear (y : Nat) : Nat :=
  365 * y + (y + 3) / 4 - (y + 99) / 100 + (y + 399) / 400

/-- Serial day number of a date (day count from 0000-01-01).  This models
the millisecond timestamp `valueOf` at calendar-day granularity. -/
def toSerial (d : Date) : Nat :=
  daysBeforeYear d.year + daysBeforeMonth d.year d.month + (d.day - 1)

/-- Day of week, 0 = Sunday (the dayjs `day()` getter). -/
def dayOfWeek (d : Date) : Nat :=
  (toSerial d + 6) % 7

/-- A structurally valid calendar date. -/
def Date.Valid (d : Date) : Prop :=
  1 ≤ d.day ∧ d.day ≤ daysInMonth d.year d.month ∧ d.month ≤ 11

instance (d : Date) : Decidable d.Valid := by
  unfold Date.Valid; infer_instance

/-- The next calendar day (dayjs `add(1, "day")` restricted to valid dates,
with explicit month/year rollover). -/
def nextDay (d : Date) : Date :=
  if d.day < daysInMonth d.year d.month then ⟨d.year, d.month, d.day + 1⟩
  else if d.month < 11 then ⟨d.year, d.month + 1, 1⟩
  else ⟨d.year + 1, 0, 1⟩

/-- Adding `n` days, one at a time. -/
def addDays (d : Date) (n : Nat) : Date :=
  match n with
  | 0 => d
  | n + 1 => nextDay (addDays d n)

/-- dayjs `set year` (clamps the day to the target month's length). -/
def setYear (d : Date) (y : Nat) : Date :=
  ⟨y, d.month, min d.day (daysInMonth y d.month)⟩

/-- dayjs `set month` with an absolute (possibly ≥ 12) month number; the
day is clamped to the new month's length. -/
def setMonthAbs (d : Date) (t : Nat) : Date :=
  ⟨d.year + t / 12, t % 12, min d.day (daysInMonth (d.year + t / 12) (t % 12))⟩

/-- dayjs `date(k)` setter: day `k` counted from the first of the current
month (overflow rolls into following months, as `Date.setDate` does). -/
def setDayOfMonth (d : Date) (k : Nat) : Date :=
  addDays ⟨d.year, d.month, 1⟩ (k - 1)

/-- dayjs `add(k, "month")` (`set(month, month + k)`). -/
def addMonthsClamp (d : Date) (k : Nat) : Date :=
  setMonthAbs d (d.month + k)

/-- dayjs `subtract(1, "year")` (clamps Feb 29 to Feb 28). -/
def subYearClamp (d : Date) : Date :=
  ⟨d.year - 1, d.month, min d.day (daysInMonth (d.year - 1) d.month)⟩

/-- Comparison used by the engine's date sorts
(`(a, b) => a.valueOf() - b.valueOf()`). -/
def dateLe (a b : Date) : Bool :=
  toSerial a ≤ toSerial b

/- ### Basic calendar lemmas -/

theorem daysInMonth_pos (y m : Nat) : 1 ≤ daysInMonth y m := by
  unfold daysInMonth
  rcases m with _ | _ | _ | _ | _ | _ | _ | _ | _ | _ | _ | m <;>
    simp <;> split <;> simp

theorem daysBeforeMonth_succ (y m : Nat) (hm : m ≤ 10) :
    daysBeforeMonth y (m + 1) = daysBeforeMonth y m + daysInMonth y m := by
  interval_cases m <;>
    simp [daysBeforeMonth, daysInMonth] <;> split <;> simp <;> omega

theorem isLeap_iff (y : Nat) :
    isLeap y = true ↔ ((y % 4 = 0 ∧ ¬y % 100 = 0) ∨ y % 400 = 0) := by
  unfold isLeap
  simp only [Bool.or_eq_true, Bool.and_eq_true, beq_iff_eq, bne_iff_ne, ne_eq]

set_option maxHeartbeats 1600000 in
theorem daysBeforeYear_succ (y : Nat) :
    daysBeforeYear (y + 1) =
      daysBeforeYear y + 365 + (if isLeap y then 1 else 0) := by
  unfold daysBeforeYear
  simp only [isLeap_iff]
  by_cases h : (y % 4 = 0 ∧ ¬y % 100 = 0) ∨ y % 400 = 0
  · rw [if_pos h]; omega
  · rw [if_neg h]; omega

theorem daysBeforeMonth_add_daysInMonth_le (y m : Nat) (hm : m ≤ 11) :
    daysBeforeMonth y m + daysInMonth y m ≤ 365 + (if isLeap y then 1 else 0) := by
  interval_cases m <;> simp [daysBeforeMonth, daysInMonth] <;> split <;> simp

theorem toSerial_nextDay (d : Date) (h : d.Valid) :
    toSerial (nextDay d) = toSerial d + 1 := by
  obtain ⟨h1, h2, h3⟩ := h
  unfold nextDay
  split
  · unfold toSerial; dsimp only; omega
  · split
    · rename_i hlt hm
      unfold toSerial
      dsimp only
      have hd : d.day = daysInMonth d.year d.month := by omega
      have := daysBeforeMonth_succ d.year d.month (by omega)
      omega
    · rename_i hlt hm
      have hm11 : d.month = 11 := by omega
      have hd : d.day = daysInMonth d.year d.month := by omega
      have hy := daysBeforeYear_succ d.year
      unfold toSerial
      dsimp only
      rw [hm11] at hd ⊢
      simp [daysBeforeMonth, daysInMonth] at hd ⊢
      by_cases hl : isLeap d.year <;> simp [hl] at hy ⊢ <;> omega

theorem nextDay_valid (d : Date) (h : d.Valid) : (nextDay d).Valid := by
  obtain ⟨h1, h2, h3⟩ := h
  have hp1 := daysInMonth_pos d.year (d.month + 1)
  have hp2 := daysInMonth_pos (d.year + 1) 0
  unfold nextDay Date.Valid
  split
  · dsimp only; omega
  · split <;> dsimp only <;> omega

theorem addDays_valid (d : Date) (h : d.Valid) (n : Nat) : (addDays d n).Valid := by
  induction n with
  | zero => exact h
  | succ n ih => exact nextDay_valid _ ih

theorem toSerial_addDays (d : Date) (h : d.Valid) (n : Nat) :
    toSerial (addDays d n) = toSerial d + n := by
  induction n with
  | zero => rfl
  | succ n ih =>
    have h2 := toSerial_nextDay (addDays d n) (addDays_valid d h n)
    show toSerial (nextDay (addDays d n)) = toSerial d + (n + 1)
    omega

theorem addDays_succ_left (d : Date) (n : Nat) :
    addDays (nextDay d) n = addDays d (n + 1) := by
  induction n with
  | zero => rfl
  | succ n ih => simp [addDays, ih]

theorem daysBeforeYear_mono {x y : Nat} (h : x ≤ y) :
    daysBeforeYear x ≤ daysBeforeYear y := by
  induction y with
  | zero =>
    have hx : x = 0 := by omega
    rw [hx]
  | succ y ih =>
    rcases Nat.lt_or_ge x (y + 1) with h2 | h2
    · have hs := daysBeforeYear_succ y
      have := ih (by omega)
      omega
    · have hx : x = y + 1 := by omega
      rw [hx]

theorem daysBeforeMonth_le (y : Nat) {m1 m2 : Nat} (h : m1 < m2) (h2 : m2 ≤ 11) :
    daysBeforeMonth y m1 + daysInMonth y m1 ≤ daysBeforeMonth y m2 := by
  induction m2 with
  | zero => omega
  | succ m2 ih =>
    have hs := daysBeforeMonth_succ y m2 (by omega)
    rcases Nat.lt_or_ge m1 m2 with h3 | h3
    · have := ih (by omega) (by omega)
      have := daysInMonth_pos y m2
      omega
    · have hm : m1 = m2 := by omega
      rw [hm]
      omega

/-- Strict lexicographic order implies strict serial order on valid dates. -/
theorem toSerial_strict_mono (a b : Date) (ha : a.Valid) (hb : b.Valid)
    (h : a.year < b.year ∨ (a.year = b.year ∧ a.month < b.month) ∨
         (a.year = b.year ∧ a.month = b.month ∧ a.day < b.day)) :
    toSerial a < toSerial b := by
  obtain ⟨ha1, ha2, ha3⟩ := ha
  obtain ⟨hb1, hb2, hb3⟩ := hb
  rcases h with h | ⟨hy, hm⟩ | ⟨hy, hm, hd⟩
  · have hstep : toSerial a < daysBeforeYear (a.year + 1) := by
      unfold toSerial
      have := daysBeforeMonth_add_daysInMonth_le a.year a.month ha3
      have := daysBeforeYear_succ a.year
      omega
    have hmono : daysBeforeYear (a.year + 1) ≤ daysBeforeYear b.year :=
      daysBeforeYear_mono (by omega)
    have hge : daysBeforeYear b.year ≤ toSerial b := by
      unfold toSerial; omega
    omega
  · have hk := @daysBeforeMonth_le b.year a.month b.month hm hb3
    rw [hy] at ha2
    unfold toSerial
    rw [hy]
    omega
  · unfold toSerial
    rw [hy, hm]
    omega

theorem toSerial_inj (a b : Date) (ha : a.Valid) (hb : b.Valid)
    (h : toSerial a = toSerial b) : a = b := by
  by_contra hne
  have htri : a.year < b.year ∨ (a.year = b.year ∧ a.month < b.month) ∨
      (a.year = b.year ∧ a.month = b.month ∧ a.day < b.day) ∨
      b.year < a.year ∨ (b.year = a.year ∧ b.month < a.month) ∨
      (b.year = a.year ∧ b.month = a.month ∧ b.day < a.day) := by
    rcases a with ⟨ay, am, ad⟩
    rcases b with ⟨by_, bm, bd⟩
    simp only [Date.mk.injEq] at hne
    simp only
    omega
  rcases htri with h1 | h1 | h1 | h1 | h1 | h1
  · have := toSerial_strict_mono a b ha hb (Or.inl h1); omega
  · have := toSerial_strict_mono a b ha hb (Or.inr (Or.inl h1)); omega
  · have := toSerial_strict_mono a b ha hb (Or.inr (Or.inr h1)); omega
  · have := toSerial_strict_mono b a hb ha (Or.inl h1); omega
  · have := toSerial_strict_mono b a hb ha (Or.inr (Or.inl h1)); omega
  · have := toSerial_strict_mono b a hb ha (Or.inr (Or.inr h1)); omega

/- ### Working-day calendar (processor.js lines 141-188) -/

/-- Source `isWorkingDay(date, holidays, saturdayWorking)` (processor.js 171-178):
not Sunday, not a Saturday unless `saturdayWorking`, not a holiday. -/
def isWorkingDay (d : Date) (holidays : List Date) (saturdayWorking : Bool) : Bool :=
  if dayOfWeek d == 0 then false
  else if dayOfWeek d == 6 && !saturdayWorking then false
  else if holidays.contains d then false
  else true

/-- Fuelled forward scan of `findNextWorkingDay`; returns the original date
when the fuel (60 days) is exhausted. -/
def findNextWorkingDayAux (orig : Date) (holidays : List Date) (sw : Bool) :
    Nat → Date → Date
  | 0, _ => orig
  | n + 1, curr =>
    if isWorkingDay curr holidays sw then curr
    else findNextWorkingDayAux orig holidays sw n (nextDay curr)

/-- Source `findNextWorkingDay(date, holidays, saturdayWorking)` (processor.js
180-188): scan up to 60 days forward, inclusive; fall back to the original
date when no working day is found. -/
def findNextWorkingDay (d : Date) (holidays : List Date) (sw : Bool) : Date :=
  findNextWorkingDayAux d holidays sw 60 d

/-- Source `getWorkingDays(year, monthIndex, holidays, saturdayWorking)`
(processor.js 141-168).  The source starts from
`dayjs().year(year).month(monthIndex).date(1)` — the `now`-dependent
setters — and walks day by day to the end of the month, keeping days that
are not Sunday, not a holiday, and not a non-working Saturday. -/
def getWorkingDays (now : Date) (year monthIndex : Nat) (holidays : List Date)
    (saturdayWorking : Bool) : List Date :=
  let start := setDayOfMonth (setMonthAbs (setYear now year) monthIndex) 1
  (List.range (daysInMonth start.year start.month)).filterMap (fun i =>
    let curr := addDays start i
    let isSunday := dayOfWeek curr == 0
    let isSaturday := dayOfWeek curr == 6
    let isHoliday := holidays.contains curr
    let isWorking := (!isSunday && !isHoliday) && !(isSaturday && !saturdayWorking)
    if isWorking then some curr else none)

/- ### Even distribution allocator (spec §4.2; inlined twice in
processor.js: lines 649-658 for months, 681-693 for days) -/

/-- Allocator `distribute(n, d)`: `base = floor(n/d)`, the first `n mod d` slots get
`base + 1`, the rest get `base`. -/
def distribute (n d : Nat) : List Nat :=
  (List.range d).map (fun i => if i < n % d then n / d + 1 else n / d)

theorem distribute_length (n d : Nat) : (distribute n d).length = d := by
  simp [distribute]

theorem distribute_eq_replicate (n d : Nat) (hd : 0 < d) :
    distribute n d =
      List.replicate (n % d) (n / d + 1) ++ List.replicate (d - n % d) (n / d) := by
  have hr : n % d ≤ d := le_of_lt (Nat.mod_lt n hd)
  unfold distribute
  have hd2 : List.range d = List.range (n % d) ++ (List.range (d - n % d)).map (n % d + ·) := by
    rw [← List.range_add]
    congr 1
    omega
  rw [hd2, List.map_append, List.map_map]
  congr 1
  · have h1 : ∀ i ∈ List.range (n % d),
        (if i < n % d then n / d + 1 else n / d) = n / d + 1 := by
      intro i hi
      rw [if_pos (List.mem_range.mp hi)]
    rw [List.map_congr_left h1]
    simp
  · have h2 : ∀ i ∈ List.range (d - n % d),
        ((fun i => if i < n % d then n / d + 1 else n / d) ∘ (n % d + ·)) i = n / d := by
      intro i hi
      simp only [Function.comp_apply]
      rw [if_neg (by omega)]
    rw [List.map_congr_left h2]
    simp

theorem distribute_sum (n d : Nat) (hd : 0 < d) : (distribute n d).sum = n := by
  rw [distribute_eq_replicate n d hd]
  rw [List.sum_append, List.sum_replicate, List.sum_replicate, smul_eq_mul, smul_eq_mul]
  have heq := Nat.div_add_mod n d
  have hr : n % d < d := Nat.mod_lt n hd
  have h1 : (d - n % d) * (n / d) = d * (n / d) - n % d * (n / d) :=
    Nat.sub_mul d (n % d) (n / d)
  have h2 : n % d * (n / d) ≤ d * (n / d) :=
    Nat.mul_le_mul_right (n / d) (le_of_lt hr)
  have h3 : n % d * (n / d + 1) = n % d * (n / d) + n % d := Nat.mul_succ (n % d) (n / d)
  omega

/- ### Characterization of the 60-day forward scan -/

instance decidableExistsLtAnd (n : Nat) (p : Nat → Prop) [DecidablePred p] :
    Decidable (∃ i, i < n ∧ p i) :=
  decidable_of_iff (∃ i ∈ List.range n, p i) (by simp [List.mem_range])

theorem findNextWorkingDayAux_spec (orig : Date) (hol : List Date) (sw : Bool) :
    ∀ (fuel : Nat) (curr : Date),
      findNextWorkingDayAux orig hol sw fuel curr =
        if h : ∃ i, i < fuel ∧ isWorkingDay (addDays curr i) hol sw = true
        then addDays curr (Nat.find h)
        else orig := by
  intro fuel
  induction fuel with
  | zero =>
    intro curr
    rw [dif_neg]
    · rfl
    · rintro ⟨i, hi, _⟩
      omega
  | succ fuel ih =>
    intro curr
    by_cases hw : isWorkingDay curr hol sw = true
    · have hex : ∃ i, i < fuel + 1 ∧ isWorkingDay (addDays curr i) hol sw = true :=
        ⟨0, by omega, hw⟩
      rw [dif_pos hex]
      have hf0 : Nat.find hex = 0 := by
        rw [Nat.find_eq_zero]
        exact ⟨by omega, hw⟩
      rw [hf0]
      show findNextWorkingDayAux orig hol sw (fuel + 1) curr = curr
      simp only [findNextWorkingDayAux]
      rw [if_pos hw]
    · have hstep : findNextWorkingDayAux orig hol sw (fuel + 1) curr =
          findNextWorkingDayAux orig hol sw fuel (nextDay curr) := by
        simp only [findNextWorkingDayAux]
        rw [if_neg hw]
      rw [hstep, ih (nextDay curr)]
      by_cases hex : ∃ i, i < fuel ∧ isWorkingDay (addDays (nextDay curr) i) hol sw = true
      · rw [dif_pos hex]
        have hex2 : ∃ i, i < fuel + 1 ∧ isWorkingDay (addDays curr i) hol sw = true := by
          obtain ⟨i, hi, hwi⟩ := hex
          rw [addDays_succ_left] at hwi
          exact ⟨i + 1, by omega, hwi⟩
        rw [dif_pos hex2]
        have hf : Nat.find hex2 = Nat.find hex + 1 := by
          rw [Nat.find_eq_iff]
          constructor
          · have hs := Nat.find_spec hex
            rw [addDays_succ_left] at hs
            exact ⟨by omega, hs.2⟩
          · intro k hk
            match k with
            | 0 =>
              intro hc
              exact hw hc.2
            | j + 1 =>
              intro hc
              have hmin := Nat.find_min hex (m := j) (by omega)
              rw [addDays_succ_left] at hmin
              exact hmin ⟨by omega, hc.2⟩
        rw [hf, ← addDays_succ_left]
      · rw [dif_neg hex, dif_neg]
        rintro ⟨i, hi, hwi⟩
        match i with
        | 0 => exact hw hwi
        | j + 1 =>
          apply hex
          rw [← addDays_succ_left] at hwi
          exact ⟨j, by omega, hwi⟩

theorem findNextWorkingDay_eq (d : Date) (hol : List Date) (sw : Bool) :
    findNextWorkingDay d hol sw =
      if h : ∃ i : Nat, i < 60 ∧ isWorkingDay (addDays d i) hol sw = true
      then addDays d (Nat.find h) else d :=
  findNextWorkingDayAux_spec d hol sw 60 d

theorem findNextWorkingDay_cases (d : Date) (hol : List Date) (sw : Bool) :
    isWorkingDay (findNextWorkingDay d hol sw) hol sw = true ∨
      (findNextWorkingDay d hol sw = d ∧
        ∀ i, i < 60 → ¬isWorkingDay (addDays d i) hol sw = true) := by
  rw [findNextWorkingDay_eq]
  by_cases h : ∃ i : Nat, i < 60 ∧ isWorkingDay (addDays d i) hol sw = true
  · rw [dif_pos h]
    exact Or.inl (Nat.find_spec h).2
  · rw [dif_neg h]
    refine Or.inr ⟨rfl, fun i hi hwi => h ⟨i, hi, hwi⟩⟩

theorem findNextWorkingDay_valid (d : Date) (hd : d.Valid) (hol : List Date) (sw : Bool) :
    (findNextWorkingDay d hol sw).Valid := by
  rw [findNextWorkingDay_eq]
  by_cases h : ∃ i : Nat, i < 60 ∧ isWorkingDay (addDays d i) hol sw = true
  · rw [dif_pos h]
    exact addDays_valid d hd _
  · rw [dif_neg h]
    exact hd

theorem findNextWorkingDay_ge (d : Date) (hd : d.Valid) (hol : List Date) (sw : Bool) :
    toSerial d ≤ toSerial (findNextWorkingDay d hol sw) := by
  rw [findNextWorkingDay_eq]
  by_cases h : ∃ i : Nat, i < 60 ∧ isWorkingDay (addDays d i) hol sw = true
  · rw [dif_pos h, toSerial_addDays d hd]
    omega
  · rw [dif_neg h]

/-- The forward snap is (weakly) monotone on valid dates: it can merge two
candidates into the same day but never swaps their order. -/
theorem findNextWorkingDay_mono (a b : Date) (ha : a.Valid) (hb : b.Valid)
    (hol : List Date) (sw : Bool) (hle : toSerial a ≤ toSerial b) :
    toSerial (findNextWorkingDay a hol sw) ≤ toSerial (findNextWorkingDay b hol sw) := by
  have hbge := findNextWorkingDay_ge b hb hol sw
  rw [findNextWorkingDay_eq]
  by_cases h : ∃ i : Nat, i < 60 ∧ isWorkingDay (addDays a i) hol sw = true
  · rw [dif_pos h]
    set ja := Nat.find h with hja
    have hspec := Nat.find_spec h
    rw [toSerial_addDays a ha]
    rcases Nat.lt_or_ge (toSerial a + ja) (toSerial b) with hlt | hge
    · omega
    · -- the first working day at/after `a` is at/after `b`; it is also the
      -- first working day at/after `b`
      have hb2 : addDays a ja = addDays b (toSerial a + ja - toSerial b) := by
        apply toSerial_inj _ _ (addDays_valid a ha ja) (addDays_valid b hb _)
        rw [toSerial_addDays a ha, toSerial_addDays b hb]
        omega
      have hexb : ∃ i : Nat, i < 60 ∧ isWorkingDay (addDays b i) hol sw = true := by
        refine ⟨toSerial a + ja - toSerial b, by omega, ?_⟩
        rw [← hb2]
        exact hspec.2
      rw [findNextWorkingDay_eq, dif_pos hexb, toSerial_addDays b hb]
      set jb := Nat.find hexb with hjb
      have hspecb := Nat.find_spec hexb
      -- if b's hit were strictly earlier than a's hit, it would contradict
      -- minimality of a's hit
      rcases Nat.lt_or_ge (toSerial b + jb) (toSerial a + ja) with hc | hc
      · exfalso
        have hmin := Nat.find_min h (m := toSerial b + jb - toSerial a) (by omega)
        apply hmin
        refine ⟨by omega, ?_⟩
        have : addDays a (toSerial b + jb - toSerial a) = addDays b jb := by
          apply toSerial_inj _ _ (addDays_valid a ha _) (addDays_valid b hb _)
          rw [toSerial_addDays a ha, toSerial_addDays b hb]
          omega
        rw [this]
        exact hspecb.2
      · omega
  · rw [dif_neg h]
    omega

/- ### Working-day list lemmas -/

theorem isWorkingDay_eq_inline (d : Date) (hol : List Date) (sw : Bool) :
    isWorkingDay d hol sw =
      ((!(dayOfWeek d == 0) && !(hol.contains d)) && !((dayOfWeek d == 6) && !sw)) := by
  unfold isWorkingDay
  rcases hb0 : (dayOfWeek d == 0) <;> rcases hb6 : (dayOfWeek d == 6) <;>
    rcases hh : hol.contains d <;> rcases hs : sw <;> simp [hb0, hb6, hh, hs]

theorem getWorkingDays_now_irrelevant (n1 n2 : Date) (y m : Nat) (hol : List Date)
    (sw : Bool) : getWorkingDays n1 y m hol sw = getWorkingDays n2 y m hol sw := rfl

theorem getWorkingDays_mem (now : Date) (y m : Nat) (hol : List Date) (sw : Bool)
    (d : Date) (hd : d ∈ getWorkingDays now y m hol sw) :
    d.Valid ∧ isWorkingDay d hol sw = true := by
  unfold getWorkingDays at hd
  simp only [List.mem_filterMap, List.mem_range] at hd
  obtain ⟨i, hi, hsome⟩ := hd
  split at hsome
  · rename_i hwork
    cases hsome
    have hstart : setDayOfMonth (setMonthAbs (setYear now y) m) 1 =
        ⟨y + m / 12, m % 12, 1⟩ := rfl
    constructor
    · rw [hstart]
      apply addDays_valid
      refine ⟨le_refl 1, daysInMonth_pos _ _, ?_⟩
      show m % 12 ≤ 11
      omega
    · rw [isWorkingDay_eq_inline]
      rw [Bool.and_comm (!(dayOfWeek _ == 0)) _] at hwork ⊢
      rcases hb0 : (dayOfWeek (addDays (setDayOfMonth (setMonthAbs (setYear now y) m) 1)
          i) == 0) <;>
        simp [hb0] at hwork ⊢ <;> tauto
  · cases hsome

/- ### Stable sort on dates (`sort((a, b) => a.valueOf() - b.valueOf())`) -/

instance : IsTotal Date (fun a b => dateLe a b = true) :=
  ⟨fun a b => by simp only [dateLe, decide_eq_true_eq]; omega⟩

instance : IsTrans Date (fun a b => dateLe a b = true) :=
  ⟨fun a b c hab hbc => by simp only [dateLe, decide_eq_true_eq] at *; omega⟩

/-- The engine's date sort (used once in birthday mode, once in cycle
mode).  V8's `Array.prototype.sort` is stable, and a stable sort under a
fixed comparator is extensionally unique, so any stable sort models it; we
use insertion sort, which the kernel can evaluate. -/
def sortDates (l : List Date) : List Date :=
  List.insertionSort (fun a b => dateLe a b = true) l

theorem sortDates_perm (l : List Date) : (sortDates l).Perm l :=
  List.perm_insertionSort (fun a b => dateLe a b = true) l

theorem sortDates_pairwise (l : List Date) :
    (sortDates l).Pairwise (fun a b => dateLe a b = true) :=
  List.sorted_insertionSort (fun a b => dateLe a b = true) l

theorem sortDates_length (l : List Date) : (sortDates l).length = l.length := by
  simpa using (sortDates_perm l).length_eq

/- ### Cycle date projector (processor.js 712-740) -/

/-- One follow-up candidate: `dayDate.add(interval * v, "month")`, folded
back one year when it overflows the target year. -/
def wrapCandidate (dayDate : Date) (vc targetYear v : Nat) : Date :=
  let nd := addMonthsClamp dayDate ((12 * v) / vc)
  if targetYear < nd.year then subYearClamp nd else nd

/-- The per-person date list of the standard (distribution) logic: first
visit at `dayDate`; for `visitCount > 1` the wrapped month-stepped
candidates are added; the list is sorted and only then snapped to working
days (processor.js 713-732). -/
def cycleDates (dayDate : Date) (vc targetYear : Nat) (hol : List Date) (sw : Bool) :
    List Date :=
  let candidates :=
    dayDate :: (if 1 < vc then
      (List.range (vc - 1)).map (fun v0 => wrapCandidate dayDate vc targetYear (v0 + 1))
    else [])
  (sortDates candidates).map (fun d => findNextWorkingDay d hol sw)

/- ### Birthday-anchored projector (processor.js 552-582) -/

/-- Models `dayjs().year(Y).month(M).date(birthDay)`, with the source's
days-in-month clamp applied first when `birthDay` overflows the month. -/
def birthdayVisitDate (now : Date) (targetYear targetMonth birthDay : Nat) : Date :=
  let base := setMonthAbs (setYear now targetYear) targetMonth
  let dim := daysInMonth base.year base.month
  if dim < birthDay then setDayOfMonth base dim
  else setDayOfMonth base birthDay

/-- Per-person birthday-anchored dates: visit `v` targets month
`floor(v * (12 / visitCount))` of the target year on the person's birth
day-of-month (clamped), snapped to a working day, then the whole list is
sorted. -/
def birthdayDates (now : Date) (vc targetYear birthDay : Nat) (hol : List Date)
    (sw : Bool) : List Date :=
  sortDates ((List.range vc).map (fun v =>
    findNextWorkingDay (birthdayVisitDate now targetYear ((12 * v) / vc) birthDay) hol sw))

theorem addDays_in_month (y m : Nat) :
    ∀ j, j + 1 ≤ daysInMonth y m → addDays ⟨y, m, 1⟩ j = ⟨y, m, j + 1⟩ := by
  intro j
  induction j with
  | zero => intro _; rfl
  | succ j ih =>
    intro hj
    show nextDay (addDays ⟨y, m, 1⟩ j) = _
    rw [ih (by omega)]
    unfold nextDay
    rw [if_pos]
    exact (by omega : j + 1 < daysInMonth y m)

theorem birthdayVisitDate_eq (now : Date) (targetYear targetMonth birthDay : Nat)
    (hb : 1 ≤ birthDay) :
    birthdayVisitDate now targetYear targetMonth birthDay =
      ⟨targetYear + targetMonth / 12, targetMonth % 12,
        min birthDay (daysInMonth (targetYear + targetMonth / 12) (targetMonth % 12))⟩ := by
  have hbase : (setMonthAbs (setYear now targetYear) targetMonth).year =
      targetYear + targetMonth / 12 := rfl
  have hbase2 : (setMonthAbs (setYear now targetYear) targetMonth).month =
      targetMonth % 12 := rfl
  simp only [birthdayVisitDate, setDayOfMonth]
  rw [hbase, hbase2]
  set dim := daysInMonth (targetYear + targetMonth / 12) (targetMonth % 12) with hdim
  have hpos : 1 ≤ dim := daysInMonth_pos _ _
  split
  · rename_i hlt
    rw [addDays_in_month _ _ (dim - 1) (by omega)]
    congr 1
    omega
  · rename_i hge
    rw [addDays_in_month _ _ (birthDay - 1) (by omega)]
    congr 1
    omega

theorem birthdayVisitDate_now_irrelevant (n1 n2 : Date) (y m b : Nat) :
    birthdayVisitDate n1 y m b = birthdayVisitDate n2 y m b := rfl

/- ### Engine data model (spec §3; processor.js 339-475) -/

/-- One roster row, as the engine sees it after ingestion: an opaque
identity (`idx` stands for the original field bag), the detected name-cell
value (`none` models a missing/empty — falsy — cell), and the parsed birth
date (`none` models an invalid date, `_birthDate.isValid() == false`). -/
structure Person where
  idx : Nat
  nameCell : Option String
  birth : Option Date
deriving DecidableEq, Repr

/-- One `config.ranges` entry.  `gender` is one of `"all"`, `"male"`,
`"female"` (the empty string models an absent — falsy — field).
`visitCount` is stored raw; the engine applies `|| 1`. -/
structure RangeRule where
  startYear : Nat
  endYear : Nat
  gender : String
  visitCount : Nat
  useBirthday : Bool
  counts : List Nat
deriving DecidableEq, Repr

/-- The run configuration.  `nameColFound` records whether the ingestion
heuristics detected a name column (`nameColKey !== null`). -/
structure Config where
  ranges : List RangeRule
  targetYear : Nat
  saturdayWorking : Bool
  holidays : List Date
  nameColFound : Bool
deriving Repr

/-- Effective visit count, `range.visitCount || 1`. -/
def effVisit (r : RangeRule) : Nat :=
  if r.visitCount = 0 then 1 else r.visitCount

/-- Source `getGender(row)` (processor.js 389-401): `"female"` exactly when the
first space-separated word of the name cell ends in the letter `a`
(case-insensitively); `"male"` when no name column was detected, the cell
is falsy, or otherwise. -/
def getGender (nameColFound : Bool) (cell : Option String) : String :=
  if !nameColFound then "male"
  else
    match cell with
    | none => "male"
    | some s =>
      if s = "" then "male"
      else
        let firstWord := (s.trim.splitOn " ").headD ""
        if firstWord = "" then "male"
        else if (firstWord.toLower).endsWith "a" then "female" else "male"

/-- The population filter of one range (processor.js 425-440): valid birth
date, year ≥ 1900, year within `[startYear, endYear]`, and — when a
non-`"all"` gender filter is set — matching derived gender. -/
def eligiblePred (cfg : Config) (r : RangeRule) (p : Person) : Bool :=
  match p.birth with
  | none => false
  | some b =>
    if b.year < 1900 then false
    else if b.year < r.startYear || r.endYear < b.year then false
    else if !(r.gender == "" || r.gender == "all") then
      if getGender cfg.nameColFound p.nameCell == r.gender then true else false
    else true

def eligibleFor (cfg : Config) (r : RangeRule) (rows : List Person) : List Person :=
  rows.filter (eligiblePred cfg r)

/- ### Cohort scheduler (processor.js 444-852) -/

/-- Distribute consecutive patients over the month's working days: day `d`
receives `countForDay = base + 1` for the first `N mod D` days and `base`
afterwards (processor.js 681-747); `counts` is `distribute N D`. -/
def assignDays (days : List Date) (counts : List Nat) (patients : List Person) :
    List (Person × Date) :=
  match days, counts with
  | [], _ => []
  | _, [] => []
  | day :: restDays, c :: restCounts =>
    (patients.take c).map (fun p => (p, day)) ++
      assignDays restDays restCounts (patients.drop c)

/-- The month loop of the standard logic (processor.js 661-766): months with
a zero quota, with no working days, or finding the pool exhausted are
skipped without consuming patients; otherwise the month's quota is taken
from the pool, spread over the working days, and each placed patient gets
their cycle dates. -/
def runMonths (now : Date) (cfg : Config) (vc : Nat) (counts : List Nat) :
    List Nat → List Person → List (Person × List Date) × List Person
  | [], pool => ([], pool)
  | m :: ms, pool =>
    let targetCount := counts.getD m 0
    if targetCount = 0 then runMonths now cfg vc counts ms pool
    else
      let workingDays := getWorkingDays now cfg.targetYear m cfg.holidays cfg.saturdayWorking
      if workingDays.isEmpty then runMonths now cfg vc counts ms pool
      else
        let taken := pool.take targetCount
        if taken.isEmpty then runMonths now cfg vc counts ms pool
        else
          let pairs := assignDays workingDays (distribute taken.length workingDays.length) taken
          let rows := pairs.map (fun pd =>
            (pd.1, cycleDates pd.2 vc cfg.targetYear cfg.holidays cfg.saturdayWorking))
          let rest := runMonths now cfg vc counts ms (pool.drop targetCount)
          (rows ++ rest.1, rest.2)

/-- One cohort's produced rows: assigned people with their visit dates, in
assignment order, and the unplanned leftovers. -/
structure RangeResult where
  assigned : List (Person × List Date)
  unplanned : List Person
deriving DecidableEq, Repr

/-- Models `p._birthDate.date()` — the birth day-of-month (callers guarantee a
valid birth date). -/
def birthDayOf (p : Person) : Nat :=
  match p.birth with
  | some b => b.day
  | none => 1

/-- Scheduling of one range (processor.js 480-845), after the
capacity/empty-pool checks.  Birthday mode assigns every pooled person a
birthday-anchored projection; the standard logic distributes the pool (or
the manual monthly counts) over months.  The leftover pool is recorded as
unplanned only when at least one row was assigned — this mirrors the
source, whose unplanned handling is nested inside the
`if (rangeAllRows.length > 0)` block. -/
def scheduleRange (now : Date) (cfg : Config) (r : RangeRule) (pool : List Person) :
    RangeResult :=
  let vc := effVisit r
  if r.useBirthday then
    { assigned := pool.map (fun p =>
        (p, birthdayDates now vc cfg.targetYear (birthDayOf p) cfg.holidays
          cfg.saturdayWorking)),
      unplanned := [] }
  else
    let countsToUse := if 1 < vc then distribute pool.length 12 else r.counts
    let res := runMonths now cfg vc countsToUse (List.range 12) pool
    { assigned := res.1,
      unplanned := if res.1.isEmpty then [] else res.2 }

/-- The capacity-exceeded error message (apostrophes of the original Uzbek
text elided). -/
def capacityMsg (r : RangeRule) (planned avail : Nat) : String :=
  "Xato: " ++ Nat.repr r.startYear ++ "-" ++ Nat.repr r.endYear ++
    " oraligida reja (" ++ Nat.repr planned ++ ") aholi sonidan (" ++
    Nat.repr avail ++ ") kop!"

/-- The empty-population warning. -/
def noPopMsg (r : RangeRule) : String :=
  Nat.repr r.startYear ++ "-" ++ Nat.repr r.endYear ++ " (Jins: " ++
    (if r.gender = "" then "all" else r.gender) ++ "): Aholi topilmadi."

/-- The shortfall warning. -/
def shortfallMsg (r : RangeRule) (planned avail : Nat) : String :=
  Nat.repr r.startYear ++ "-" ++ Nat.repr r.endYear ++ ": Reja (" ++
    Nat.repr planned ++ ") aholi sonidan (" ++ Nat.repr avail ++ ") kam."

/-- The `for (const range of config.ranges)` loop (processor.js 404-852):
an empty pool records a warning and skips the range entirely (no group is
pushed); in manual mode an over-planned range throws, aborting the whole
run; a shortfall records a warning; otherwise the range is scheduled and
its group (effective visit count and rows) collected. -/
def processRanges (now : Date) (cfg : Config) (rows : List Person) :
    List RangeRule → Except String (List (Nat × RangeResult) × List String)
  | [] => .ok ([], [])
  | r :: rest =>
    let pool := eligibleFor cfg r rows
    let vc := effVisit r
    let processAll := r.useBirthday || decide (1 < vc)
    let totalPlanned := r.counts.sum
    if pool.length = 0 then
      match processRanges now cfg rows rest with
      | .error e => .error e
      | .ok (gs, ws) => .ok (gs, noPopMsg r :: ws)
    else if !processAll && decide (pool.length < totalPlanned) then
      .error (capacityMsg r totalPlanned pool.length)
    else
      let ws1 := if !processAll && decide (totalPlanned < pool.length)
        then [shortfallMsg r totalPlanned pool.length] else []
      match processRanges now cfg rows rest with
      | .error e => .error e
      | .ok (gs, ws) => .ok ((vc, scheduleRange now cfg r pool) :: gs, ws1 ++ ws)

/- ### Consolidator (processor.js 854-917) -/

/-- The visit-date column keys of a range (`"Tashrif sanasi"` for a single
visit, `"1-tashrif sanasi"`, … otherwise; processor.js 411-419). -/
def visitKeys (vc : Nat) : List String :=
  if vc = 1 then ["Tashrif sanasi"]
  else (List.range vc).map (fun i => Nat.repr (i + 1) ++ "-tashrif sanasi")

/-- One output row at the consolidation boundary: the person, their
visit-date fields (key/value pairs), the unplanned flag, and the identifier
column value.  Per-range sheet identifiers are rendering-level and are
overwritten by the consolidator, so rows carry `id := 0` until then. -/
structure ORow where
  person : Person
  fields : List (String × Date)
  isUnplanned : Bool
  id : Nat
deriving DecidableEq, Repr

/-- A range's `rangeAllRows` contribution, in order: assigned rows (fields
= visit keys zipped with dates) followed by unplanned rows (no visit-date
fields, flagged). -/
def rangeORows (vc : Nat) (res : RangeResult) : List ORow :=
  res.assigned.map (fun pr =>
    { person := pr.1, fields := (visitKeys vc).zip pr.2, isUnplanned := false, id := 0 }) ++
  res.unplanned.map (fun p =>
    { person := p, fields := [], isUnplanned := true, id := 0 })

/-- Source `maxVisitsGlobal` (processor.js 382-385). -/
def maxVisits (ranges : List RangeRule) : Nat :=
  ranges.foldl (fun acc r => max acc (effVisit r)) 1

/-- The per-row schema normalization (processor.js 885-888): rows of a
single-visit range have their `"Tashrif sanasi"` field renamed to
`"1-tashrif sanasi"` when the global schema has more than one visit
column. -/
def renameRow (vc maxV : Nat) (r : ORow) : ORow :=
  if vc = 1 && decide (1 < maxV) then
    { r with fields := r.fields.map (fun kv =>
        (if kv.1 = "Tashrif sanasi" then "1-tashrif sanasi" else kv.1, kv.2)) }
  else r

/-- The consolidation fold: global identifier counter `n` renumbers rows in
concatenation order (processor.js 876-893). -/
def consolidateAux (maxV : Nat) : Nat → List (Nat × ORow) → List ORow
  | _, [] => []
  | n, g :: rest =>
    { renameRow g.1 maxV g.2 with id := n } :: consolidateAux maxV (n + 1) rest

/-- Source `allRangesRows` flattened in range order, renamed and renumbered from
1. -/
def consolidate (groups : List (Nat × List ORow)) (maxV : Nat) : List ORow :=
  consolidateAux maxV 1 (groups.flatMap (fun g => g.2.map (fun r => (g.1, r))))

/-- The whole run's observable output. -/
structure RunOutput where
  groups : List (Nat × RangeResult)
  consolidated : List ORow
  warnings : List String
deriving DecidableEq, Repr

/-- The engine model of `processExcel(buffer, config)` after ingestion:
process the ranges sequentially (a capacity error aborts the run with no
output) and consolidate all collected rows under the global schema. -/
def processExcelModel (now : Date) (cfg : Config) (rows : List Person) :
    Except String RunOutput :=
  match processRanges now cfg rows cfg.ranges with
  | .error e => .error e
  | .ok (gs, ws) =>
    .ok { groups := gs,
          consolidated := consolidate (gs.map (fun g => (g.1, rangeORows g.1 g.2)))
            (maxVisits cfg.ranges),
          warnings := ws }

/- ### Claim C3: the even-distribution allocator -/

/-- C3: for every `n ≥ 0` and `d > 0`, the even-distribution allocation
used both for spreading people over the 12 months and over a month's
working days gives `⌊n/d⌋ + 1` to each of the first `n mod d` slots and
`⌊n/d⌋` to every remaining slot, so the quotas sum to exactly `n`. -/
theorem claim_C3_distribute (n d : Nat) (hd : 0 < d) :
    (distribute n d).length = d ∧ (distribute n d).sum = n ∧
      ∀ i, (h : i < d) →
        (distribute n d).get ⟨i, by rw [distribute_length]; exact h⟩ =
          if i < n % d then n / d + 1 else n / d := by
  refine ⟨distribute_length n d, distribute_sum n d hd, ?_⟩
  intro i h
  simp [distribute]

/-- Witness for C3 at the spec's own scenario: 13 people over 12 slots. -/
theorem claim_C3_distribute_witness :
    0 < 12 ∧
      ((distribute 13 12).length = 12 ∧ (distribute 13 12).sum = 13 ∧
        ∀ i, (h : i < 12) →
          (distribute 13 12).get ⟨i, by rw [distribute_length]; exact h⟩ =
            if i < 13 % 12 then 13 / 12 + 1 else 13 / 12) :=
  ⟨by decide, claim_C3_distribute 13 12 (by decide)⟩

/- ### Claim C7: the next-working-day snap -/

/-- C7: `findNextWorkingDay` returns the first working day among `d`,
`d+1`, …, `d+59` when one exists; it returns the original date unchanged
when none of those 60 days is working; in particular a date that is already
working is returned unchanged. -/
theorem claim_C7_nextWorkingDay (d : Date) (hol : List Date) (sw : Bool) :
    (isWorkingDay d hol sw = true → findNextWorkingDay d hol sw = d) ∧
    (∀ i : Nat, i < 60 → isWorkingDay (addDays d i) hol sw = true →
      ∃ j : Nat, j ≤ i ∧ findNextWorkingDay d hol sw = addDays d j ∧
        isWorkingDay (addDays d j) hol sw = true ∧
        ∀ k : Nat, k < j → isWorkingDay (addDays d k) hol sw = false) ∧
    ((∀ i : Nat, i < 60 → isWorkingDay (addDays d i) hol sw = false) →
      findNextWorkingDay d hol sw = d) := by
  refine ⟨?_, ?_, ?_⟩
  · intro hw
    have hex : ∃ i : Nat, i < 60 ∧ isWorkingDay (addDays d i) hol sw = true :=
      ⟨0, by omega, hw⟩
    rw [findNextWorkingDay_eq, dif_pos hex]
    have hf0 : Nat.find hex = 0 := by
      rw [Nat.find_eq_zero]
      exact ⟨by omega, hw⟩
    rw [hf0]
    rfl
  · intro i hi hw
    have hex : ∃ i : Nat, i < 60 ∧ isWorkingDay (addDays d i) hol sw = true :=
      ⟨i, hi, hw⟩
    rw [findNextWorkingDay_eq, dif_pos hex]
    refine ⟨Nat.find hex, Nat.find_min' hex ⟨hi, hw⟩, rfl, (Nat.find_spec hex).2, ?_⟩
    intro k hk
    have hmin := Nat.find_min hex hk
    have hklt : k < 60 := by
      have := Nat.find_min' hex ⟨hi, hw⟩
      omega
    rcases hb : isWorkingDay (addDays d k) hol sw with _ | _
    · rfl
    · exact absurd ⟨hklt, hb⟩ hmin
  · intro hnone
    rw [findNextWorkingDay_eq, dif_neg]
    rintro ⟨i, hi, hw⟩
    rw [hnone i hi] at hw
    cases hw

/-- Witness for C7: January 1, 2026 (a Thursday) with no holidays is
already working and is returned unchanged. -/
theorem claim_C7_nextWorkingDay_witness :
    isWorkingDay ⟨2026, 0, 1⟩ [] true = true ∧
      findNextWorkingDay ⟨2026, 0, 1⟩ [] true = ⟨2026, 0, 1⟩ :=
  ⟨by decide, (claim_C7_nextWorkingDay ⟨2026, 0, 1⟩ [] true).1 (by decide)⟩

/- ### Claim C10: derived gender and its effect on the pool -/

theorem getGender_some (s : String) (hs : ¬s = "") :
    getGender true (some s) =
      if (s.trim.splitOn " ").headD "" = "" then "male"
      else if ((s.trim.splitOn " ").headD "").toLower.endsWith "a" then "female"
      else "male" := by
  simp only [getGender, Bool.not_true, Bool.false_eq_true, if_false]
  rw [if_neg hs]

theorem eligiblePred_invalid (cfg : Config) (r : RangeRule) (p : Person)
    (hb : p.birth = none) : eligiblePred cfg r p = false := by
  unfold eligiblePred
  rw [hb]

theorem eligiblePred_some (cfg : Config) (r : RangeRule) (p : Person) (b : Date)
    (hb : p.birth = some b) :
    eligiblePred cfg r p =
      if b.year < 1900 then false
      else if b.year < r.startYear || r.endYear < b.year then false
      else if !(r.gender == "" || r.gender == "all") then
        (if getGender cfg.nameColFound p.nameCell == r.gender then true else false)
      else true := by
  unfold eligiblePred
  rw [hb]

/-- C10: the derived gender is `"female"` exactly when the name cell and
the first space-separated word of it are non-empty and that word ends in
the letter `a` case-insensitively; with no detected name column or a falsy
cell the gender defaults to `"male"`, so such a person is excluded from
every `"female"`-filtered cohort's eligible pool and included under a
`"male"` filter exactly when the person is on the roster and passes the
birth-year filter. -/
theorem claim_C10_gender (cfg : Config) (r : RangeRule) (rows : List Person)
    (p : Person) :
    (∀ s : String, getGender true (some s) = "female" ↔
        (¬s = "" ∧ ¬(s.trim.splitOn " ").headD "" = "" ∧
          ((s.trim.splitOn " ").headD "").toLower.endsWith "a" = true)) ∧
    (∀ c : Option String, getGender false c = "male") ∧
    getGender true none = "male" ∧
    getGender true (some "") = "male" ∧
    (getGender cfg.nameColFound p.nameCell = "male" → r.gender = "female" →
      p ∉ eligibleFor cfg r rows) ∧
    (getGender cfg.nameColFound p.nameCell = "male" → r.gender = "male" →
      (p ∈ eligibleFor cfg r rows ↔ p ∈ rows ∧ ∃ b, p.birth = some b ∧
        1900 ≤ b.year ∧ r.startYear ≤ b.year ∧ b.year ≤ r.endYear)) := by
  have hmf : ("male" : String) ≠ "female" := by decide
  refine ⟨?_, ?_, by decide, by decide, ?_, ?_⟩
  · intro s
    by_cases hs : s = ""
    · subst hs
      have hg : getGender true (some "") = "male" := rfl
      rw [hg]
      constructor
      · intro h
        exact absurd h hmf
      · rintro ⟨h1, -, -⟩
        exact absurd rfl h1
    · rw [getGender_some s hs]
      by_cases hfw : (s.trim.splitOn " ").headD "" = ""
      · rw [if_pos hfw]
        constructor
        · intro h
          exact absurd h hmf
        · rintro ⟨-, h2, -⟩
          exact absurd hfw h2
      · rw [if_neg hfw]
        by_cases hend : ((s.trim.splitOn " ").headD "").toLower.endsWith "a" = true
        · rw [if_pos hend]
          exact ⟨fun _ => ⟨hs, hfw, hend⟩, fun _ => rfl⟩
        · rw [if_neg hend]
          constructor
          · intro h
            exact absurd h hmf
          · rintro ⟨-, -, h3⟩
            exact absurd h3 hend
  · intro c
    unfold getGender
    simp
  · intro hg hrg hmem
    rw [eligibleFor, List.mem_filter] at hmem
    obtain ⟨-, hpred⟩ := hmem
    rcases hbirth : p.birth with _ | b
    · rw [eligiblePred_invalid cfg r p hbirth] at hpred
      cases hpred
    · rw [eligiblePred_some cfg r p b hbirth, hrg, hg] at hpred
      split at hpred
      · cases hpred
      · split at hpred
        · cases hpred
        · rw [if_pos (by decide), if_neg (by decide)] at hpred
          cases hpred
  · intro hg hrg
    rw [eligibleFor, List.mem_filter]
    constructor
    · rintro ⟨hmem, hpred⟩
      refine ⟨hmem, ?_⟩
      rcases hbirth : p.birth with _ | b
      · rw [eligiblePred_invalid cfg r p hbirth] at hpred
        cases hpred
      · refine ⟨b, rfl, ?_⟩
        rw [eligiblePred_some cfg r p b hbirth] at hpred
        split at hpred
        · cases hpred
        · split at hpred
          · cases hpred
          · rename_i h1 h2
            simp only [Bool.or_eq_true, decide_eq_true_eq, not_or] at h2
            omega
    · rintro ⟨hmem, b, hbirth, hy1, hy2, hy3⟩
      refine ⟨hmem, ?_⟩
      rw [eligiblePred_some cfg r p b hbirth, hrg, hg]
      rw [if_neg (by omega)]
      rw [if_neg (by simp only [Bool.or_eq_true, decide_eq_true_eq]; omega)]
      rw [if_pos (by decide), if_pos (by decide)]

/-- Witness for C10: a person whose name cell is missing derives `"male"`
and is excluded from a `"female"`-filtered cohort. -/
theorem claim_C10_gender_witness :
    (⟨7, none, some ⟨1990, 0, 1⟩⟩ : Person) ∉
      eligibleFor ⟨[⟨1990, 1990, "female", 1, false, []⟩], 2026, true, [], true⟩
        ⟨1990, 1990, "female", 1, false, []⟩ [⟨7, none, some ⟨1990, 0, 1⟩⟩] :=
  (claim_C10_gender ⟨[⟨1990, 1990, "female", 1, false, []⟩], 2026, true, [], true⟩
      ⟨1990, 1990, "female", 1, false, []⟩ [⟨7, none, some ⟨1990, 0, 1⟩⟩]
      ⟨7, none, some ⟨1990, 0, 1⟩⟩).2.2.2.2.1 rfl rfl

theorem assignDays_mem :
    ∀ (days : List Date) (counts : List Nat) (patients : List Person),
      ∀ pd ∈ assignDays days counts patients, pd.2 ∈ days := by
  intro days
  induction days with
  | nil =>
    intro counts patients pd hpd
    simp [assignDays] at hpd
  | cons day rest ih =>
    intro counts patients pd hpd
    match counts with
    | [] => simp [assignDays] at hpd
    | c :: cs =>
      simp only [assignDays, List.mem_append, List.mem_map] at hpd
      rcases hpd with ⟨p, -, heq⟩ | hpd
      · rw [← heq]
        exact List.mem_cons_self day rest
      · exact List.mem_cons_of_mem day (ih cs (patients.drop c) pd hpd)

theorem runMonths_spec (now : Date) (cfg : Config) (vc : Nat) (counts : List Nat) :
    ∀ (ms : List Nat) (pool : List Person),
      ∀ pr ∈ (runMonths now cfg vc counts ms pool).1,
        ∃ day : Date, day.Valid ∧
          pr.2 = cycleDates day vc cfg.targetYear cfg.holidays cfg.saturdayWorking := by
  intro ms
  induction ms with
  | nil =>
    intro pool pr hpr
    simp [runMonths] at hpr
  | cons m ms ih =>
    intro pool pr hpr
    simp only [runMonths] at hpr
    split at hpr
    · exact ih pool pr hpr
    · split at hpr
      · exact ih pool pr hpr
      · split at hpr
        · exact ih pool pr hpr
        · dsimp only at hpr
          rw [List.mem_append] at hpr
          rcases hpr with hpr | hpr
          · rw [List.mem_map] at hpr
            obtain ⟨pd, hpd, heq⟩ := hpr
            have hday := assignDays_mem _ _ _ pd hpd
            have hv := getWorkingDays_mem now cfg.targetYear m cfg.holidays
              cfg.saturdayWorking pd.2 hday
            refine ⟨pd.2, hv.1, ?_⟩
            rw [← heq]
          · exact ih _ pr hpr


/- ### Claim C5: the cycle date projector -/

/-- C5: in auto-distribute mode (`visitCount > 1`) a placed person's dates
are obtained from the first visit date `f` together with the candidates
`f + ⌊v · 12/visitCount⌋ months` (`v = 1 .. visitCount-1`), each folded
back one year when its year exceeds the target year; this collection is
sorted ascending first and only then is every date mapped through the
next-working-day snap, in that order. -/
theorem claim_C5_cycleProjector (f : Date) (vc targetYear : Nat) (hol : List Date)
    (sw : Bool) (hvc : 1 < vc) :
    (∃ l : List Date,
      l.Perm (f :: (List.range (vc - 1)).map (fun v0 =>
        wrapCandidate f vc targetYear (v0 + 1))) ∧
      l.Pairwise (fun a b => toSerial a ≤ toSerial b) ∧
      cycleDates f vc targetYear hol sw =
        l.map (fun d => findNextWorkingDay d hol sw)) ∧
    (∀ (now : Date) (cfg : Config) (r : RangeRule) (pool : List Person),
      r.useBirthday = false →
      ∀ pr ∈ (scheduleRange now cfg r pool).assigned,
        ∃ day : Date, day.Valid ∧
          pr.2 = cycleDates day (effVisit r) cfg.targetYear cfg.holidays
            cfg.saturdayWorking) := by
  constructor
  · refine ⟨sortDates (f :: (List.range (vc - 1)).map (fun v0 =>
      wrapCandidate f vc targetYear (v0 + 1))), sortDates_perm _, ?_, ?_⟩
    · exact (sortDates_pairwise _).imp (fun h => of_decide_eq_true h)
    · simp only [cycleDates]
      rw [if_pos hvc]
  · intro now cfg r pool hub pr hpr
    simp only [scheduleRange, hub, Bool.false_eq_true, if_false] at hpr
    exact runMonths_spec now cfg (effVisit r)
      (if 1 < effVisit r then distribute pool.length 12 else r.counts)
      (List.range 12) pool pr hpr

/-- Witness for C5 at `visitCount = 4`, first visit July 1, 2026. -/
theorem claim_C5_cycleProjector_witness :
    1 < 4 ∧
      ∃ l : List Date,
        l.Perm (⟨2026, 6, 1⟩ :: (List.range (4 - 1)).map (fun v0 =>
          wrapCandidate ⟨2026, 6, 1⟩ 4 2026 (v0 + 1))) ∧
        l.Pairwise (fun a b => toSerial a ≤ toSerial b) ∧
        cycleDates ⟨2026, 6, 1⟩ 4 2026 [] true =
          l.map (fun d => findNextWorkingDay d [] true) :=
  ⟨by decide, (claim_C5_cycleProjector ⟨2026, 6, 1⟩ 4 2026 [] true (by decide)).1⟩

/- ### Claim C6: the birthday-anchored projector -/

/-- C6: in birthday mode visit `v` (`v = 0 .. visitCount-1`) is built in
month `⌊v · 12/visitCount⌋` of the target year on the person's birth
day-of-month, clamped to that month's last day when the birth day exceeds
it (a person born on the 31st scheduled into a 30-day month gets day 30
before snapping), then snapped to the next working day; the resulting list
is sorted ascending.  The construction is independent of the wall-clock
`now`. -/
theorem claim_C6_birthdayProjector (now : Date) (vc targetYear birthDay : Nat)
    (hol : List Date) (sw : Bool) (hb : 1 ≤ birthDay) :
    (∃ l : List Date,
      l.Perm ((List.range vc).map (fun v =>
        findNextWorkingDay
          ⟨targetYear, 12 * v / vc,
            min birthDay (daysInMonth targetYear (12 * v / vc))⟩ hol sw)) ∧
      l.Pairwise (fun a b => toSerial a ≤ toSerial b) ∧
      birthdayDates now vc targetYear birthDay hol sw = l) ∧
    (∀ (cfg : Config) (r : RangeRule) (pool : List Person), r.useBirthday = true →
      (scheduleRange now cfg r pool).assigned =
        pool.map (fun p => (p, birthdayDates now (effVisit r) cfg.targetYear
          (birthDayOf p) cfg.holidays cfg.saturdayWorking))) := by
  constructor
  swap
  · intro cfg r pool hub
    simp only [scheduleRange, hub, if_true]
  have hmap : (List.range vc).map (fun v =>
      findNextWorkingDay (birthdayVisitDate now targetYear (12 * v / vc) birthDay)
        hol sw) =
      (List.range vc).map (fun v =>
        findNextWorkingDay ⟨targetYear, 12 * v / vc,
          min birthDay (daysInMonth targetYear (12 * v / vc))⟩ hol sw) := by
    apply List.map_congr_left
    intro v hv
    rw [List.mem_range] at hv
    have hlt : 12 * v / vc < 12 := by
      apply Nat.div_lt_of_lt_mul
      omega
    congr 1
    rw [birthdayVisitDate_eq now targetYear (12 * v / vc) birthDay hb]
    rw [Nat.div_eq_of_lt hlt, Nat.mod_eq_of_lt hlt]
    simp
  refine ⟨sortDates ((List.range vc).map (fun v =>
      findNextWorkingDay ⟨targetYear, 12 * v / vc,
        min birthDay (daysInMonth targetYear (12 * v / vc))⟩ hol sw)), ?_, ?_, ?_⟩
  · exact sortDates_perm _
  · exact (sortDates_pairwise _).imp (fun h => of_decide_eq_true h)
  · unfold birthdayDates
    rw [hmap]

/-- Witness for C6: twelve visits for a person born on the 31st of a month,
target year 2026. -/
theorem claim_C6_birthdayProjector_witness :
    1 ≤ 31 ∧
      ∃ l : List Date,
        l.Perm ((List.range 12).map (fun v =>
          findNextWorkingDay
            ⟨2026, 12 * v / 12, min 31 (daysInMonth 2026 (12 * v / 12))⟩ [] true)) ∧
        l.Pairwise (fun a b => toSerial a ≤ toSerial b) ∧
        birthdayDates ⟨2026, 9, 12⟩ 12 2026 31 [] true = l :=
  ⟨by decide, (claim_C6_birthdayProjector ⟨2026, 9, 12⟩ 12 2026 31 [] true (by decide)).1⟩

/- ### Claim C9: determinism / wall-clock independence -/

theorem birthdayDates_now_irrelevant (n1 n2 : Date) (vc targetYear birthDay : Nat)
    (hol : List Date) (sw : Bool) :
    birthdayDates n1 vc targetYear birthDay hol sw =
      birthdayDates n2 vc targetYear birthDay hol sw := rfl

theorem runMonths_now_irrelevant (n1 n2 : Date) (cfg : Config) (vc : Nat)
    (counts : List Nat) :
    ∀ (ms : List Nat) (pool : List Person),
      runMonths n1 cfg vc counts ms pool = runMonths n2 cfg vc counts ms pool := by
  intro ms
  induction ms with
  | nil => intro pool; rfl
  | cons m ms ih =>
    intro pool
    simp only [runMonths]
    rw [getWorkingDays_now_irrelevant n1 n2 cfg.targetYear m cfg.holidays
      cfg.saturdayWorking]
    rw [ih pool, ih (pool.drop (counts.getD m 0))]

theorem scheduleRange_now_irrelevant (n1 n2 : Date) (cfg : Config) (r : RangeRule)
    (pool : List Person) :
    scheduleRange n1 cfg r pool = scheduleRange n2 cfg r pool := by
  cases hub : r.useBirthday
  · simp only [scheduleRange, hub, Bool.false_eq_true, if_false]
    rw [runMonths_now_irrelevant n1 n2 cfg (effVisit r)
      (if 1 < effVisit r then distribute pool.length 12 else r.counts) (List.range 12) pool]
  · simp only [scheduleRange, hub, if_true]
    simp only [birthdayDates_now_irrelevant n1 n2]

theorem processRanges_now_irrelevant (n1 n2 : Date) (cfg : Config)
    (rows : List Person) :
    ∀ rs : List RangeRule, processRanges n1 cfg rows rs = processRanges n2 cfg rows rs := by
  intro rs
  induction rs with
  | nil => rfl
  | cons r rest ih =>
    simp only [processRanges]
    rw [ih, scheduleRange_now_irrelevant n1 n2 cfg r (eligibleFor cfg r rows)]

/-- C9: the run is a pure function of the workbook rows and the run
configuration; the wall-clock date and time at which the engine executes
(every `dayjs()` call, modelled by `now`) has no influence on the groups,
the consolidated plan or the warnings, so running the engine twice on
identical inputs yields identical output. -/
theorem claim_C9_deterministic (n1 n2 : Date) (cfg : Config) (rows : List Person) :
    processExcelModel n1 cfg rows = processExcelModel n2 cfg rows := by
  unfold processExcelModel
  rw [processRanges_now_irrelevant n1 n2 cfg rows cfg.ranges]

/- ### Claim C2: capacity-exceeded handling -/

theorem effVisit_pos (r : RangeRule) : 1 ≤ effVisit r := by
  unfold effVisit
  split <;> omega

theorem processRanges_capacity (now : Date) (cfg : Config) (rows : List Person) :
    ∀ (pre : List RangeRule) (r : RangeRule) (post : List RangeRule),
      r.useBirthday = false → effVisit r = 1 →
      0 < (eligibleFor cfg r rows).length →
      (eligibleFor cfg r rows).length < r.counts.sum →
      (∀ q ∈ pre, ¬(q.useBirthday = false ∧ effVisit q = 1 ∧
          0 < (eligibleFor cfg q rows).length ∧
          (eligibleFor cfg q rows).length < q.counts.sum)) →
      processRanges now cfg rows (pre ++ r :: post) =
        .error (capacityMsg r r.counts.sum (eligibleFor cfg r rows).length) := by
  intro pre
  induction pre with
  | nil =>
    intro r post hub hev hpool hover hpre
    simp only [List.nil_append, processRanges]
    rw [if_neg (by omega)]
    rw [if_pos (show (!(r.useBirthday || decide (1 < effVisit r)) &&
        decide ((eligibleFor cfg r rows).length < r.counts.sum)) = true from by
      rw [hub, hev]
      simp [hover])]
  | cons q pre ih =>
    intro r post hub hev hpool hover hpre
    have hq := hpre q (List.mem_cons_self q pre)
    have hrest := ih r post hub hev hpool hover
      (fun q2 hq2 => hpre q2 (List.mem_cons_of_mem q hq2))
    simp only [List.cons_append, processRanges, List.append_eq]
    by_cases hq0 : (eligibleFor cfg q rows).length = 0
    · rw [if_pos hq0, hrest]
    · rw [if_neg hq0]
      have hqc : (!(q.useBirthday || decide (1 < effVisit q)) &&
          decide ((eligibleFor cfg q rows).length < q.counts.sum)) = false := by
        rcases hcond : (!(q.useBirthday || decide (1 < effVisit q)) &&
            decide ((eligibleFor cfg q rows).length < q.counts.sum)) with _ | _
        · rfl
        · exfalso
          rw [Bool.and_eq_true, Bool.not_eq_true', Bool.or_eq_false_iff] at hcond
          obtain ⟨⟨hub2, hlt2⟩, hdec⟩ := hcond
          apply hq
          refine ⟨hub2, ?_, by omega, of_decide_eq_true hdec⟩
          have h1 := effVisit_pos q
          have h2 := of_decide_eq_false hlt2
          omega
      rw [if_neg (by rw [hqc]; simp)]
      rw [hrest]

/-- C2 (amended): for every run in which some cohort rule is in manual mode
(`visitCount = 1`, birthday anchor off), has a NON-EMPTY eligible pool, and
plans more people than that pool holds — and no earlier cohort does the
same — the run fails with the capacity-exceeded error naming that cohort's
planned total and available total, and no output (no groups, no
consolidated plan) is produced.  As literally stated the claim is false:
when the eligible pool is empty the empty-population check fires first and
the run succeeds (see the counterexample). -/
theorem claim_C2_capacityExceeded (now : Date) (cfg : Config) (rows : List Person)
    (pre : List RangeRule) (r : RangeRule) (post : List RangeRule)
    (hsplit : cfg.ranges = pre ++ r :: post)
    (hub : r.useBirthday = false) (hev : effVisit r = 1)
    (hpool : 0 < (eligibleFor cfg r rows).length)
    (hover : (eligibleFor cfg r rows).length < r.counts.sum)
    (hpre : ∀ q ∈ pre, ¬(q.useBirthday = false ∧ effVisit q = 1 ∧
        0 < (eligibleFor cfg q rows).length ∧
        (eligibleFor cfg q rows).length < q.counts.sum)) :
    processExcelModel now cfg rows =
      .error (capacityMsg r r.counts.sum (eligibleFor cfg r rows).length) := by
  unfold processExcelModel
  rw [hsplit, processRanges_capacity now cfg rows pre r post hub hev hpool hover hpre]

/-- The manual-mode rule of the C2 scenarios. -/
def c2zRule : RangeRule := ⟨1990, 1990, "all", 1, false, [5, 0, 0, 0, 0, 0, 0, 0, 0, 0, 0, 0]⟩

/-- A run configuration holding only `c2zRule`. -/
def c2zCfg : Config := ⟨[c2zRule], 2026, true, [], true⟩

/-- Counterexample to C2 as stated: `c2zRule` is in manual mode and its
monthly plan (5) exceeds its eligible pool (0 people on an empty roster),
yet the run does NOT fail — the empty-population check precedes the
capacity check, so the engine records a warning and produces output. -/
theorem claim_C2_counterexample :
    c2zRule.useBirthday = false ∧ effVisit c2zRule = 1 ∧
    c2zRule ∈ c2zCfg.ranges ∧
    (eligibleFor c2zCfg c2zRule []).length < c2zRule.counts.sum ∧
    (processExcelModel ⟨2026, 9, 12⟩ c2zCfg []).isOk = true := by
  decide

/-- The rule, config and roster of the C2 witness: plan 2, pool 1. -/
def c2wRule : RangeRule := ⟨1990, 1990, "all", 1, false, [2, 0, 0, 0, 0, 0, 0, 0, 0, 0, 0, 0]⟩

/-- Witness configuration for C2. -/
def c2wCfg : Config := ⟨[c2wRule], 2026, true, [], true⟩

/-- Witness roster for C2: one eligible person. -/
def c2wRows : List Person := [⟨1, none, some ⟨1990, 0, 1⟩⟩]

/-- Witness for the amended C2: planning 2 visits against a pool of 1
aborts the run with the capacity error naming planned = 2, available =
1. -/
theorem claim_C2_capacityExceeded_witness :
    processExcelModel ⟨2026, 9, 12⟩ c2wCfg c2wRows =
      .error (capacityMsg c2wRule c2wRule.counts.sum
        (eligibleFor c2wCfg c2wRule c2wRows).length) :=
  claim_C2_capacityExceeded ⟨2026, 9, 12⟩ c2wCfg c2wRows [] c2wRule [] rfl rfl
    (by decide) (by decide) (by decide) (by intro q hq; cases hq)

/- ### Claim C4: the assigned/unplanned partition (code bug) -/

instance decEqExcept {ε α : Type} [DecidableEq ε] [DecidableEq α] :
    DecidableEq (Except ε α) := fun a b =>
  match a, b with
  | .error e1, .error e2 => decidable_of_iff (e1 = e2) (by simp)
  | .ok x, .ok y => decidable_of_iff (x = y) (by simp)
  | .error _, .ok _ => isFalse (by simp)
  | .ok _, .error _ => isFalse (by simp)

/-- A manual-mode rule planning zero people in every month. -/
def c4Rule : RangeRule := ⟨1990, 1990, "all", 1, false, [0, 0, 0, 0, 0, 0, 0, 0, 0, 0, 0, 0]⟩

/-- The configuration of the C4 failing input. -/
def c4Cfg : Config := ⟨[c4Rule], 2026, true, [], true⟩

/-- Two eligible people. -/
def c4Rows : List Person := [⟨1, none, some ⟨1990, 0, 1⟩⟩, ⟨2, none, some ⟨1990, 3, 5⟩⟩]

/-- C4 (code-bug evaluation): with an all-zero manual monthly plan and two
eligible people, no row is assigned, and because the source's unplanned
handling sits inside `if (rangeAllRows.length > 0)` (processor.js 770-845)
both eligible people are dropped: the cohort's output has 0 assigned and 0
unplanned rows against an eligible pool of size 2, and the consolidated
plan is empty — violating `|assigned| + |unplanned| = |eligible|`. -/
theorem claim_C4_partitionBug :
    (eligibleFor c4Cfg c4Rule c4Rows).length = 2 ∧
    processExcelModel ⟨2026, 9, 12⟩ c4Cfg c4Rows =
      .ok { groups := [(1, { assigned := [], unplanned := [] })],
            consolidated := [],
            warnings := [shortfallMsg c4Rule 0 2] } := by
  decide

/- ### Claim C1: assigned visit-date sequences -/

/-- Accessor for counterexample statements: the date list of the `i`-th
assigned row of the first group of an ok run (empty list otherwise). -/
def assignedDates (o : Except String RunOutput) (i : Nat) : List Date :=
  match o with
  | .ok out =>
    match out.groups with
    | g :: _ => (g.2.assigned.getD i (⟨0, none, none⟩, [])).2
    | [] => []
  | .error _ => []

/-- Scenario B of the C1 counterexample: holidays on January 1-30,
February 28 and March 1-30 of 2026. -/
def c1bHolidays : List Date :=
  ((List.range 30).map (fun i => (⟨2026, 0, i + 1⟩ : Date))) ++
  [⟨2026, 1, 28⟩] ++
  ((List.range 30).map (fun i => (⟨2026, 2, i + 1⟩ : Date)))

/-- Scenario B: one person, twelve visits. -/
def c1bCfg : Config := ⟨[⟨1990, 1990, "all", 12, false, []⟩], 2026, true, c1bHolidays, true⟩

/-- The single eligible person of both C1 scenarios. -/
def c1Person : Person := ⟨1, none, some ⟨1990, 0, 1⟩⟩

/-- Scenario A of the C1 counterexample: holidays covering all of January,
all of February and March 1 of 2026 — 60 consecutive days. -/
def c1aHolidays : List Date :=
  ((List.range 31).map (fun i => (⟨2026, 0, i + 1⟩ : Date))) ++
  ((List.range 28).map (fun i => (⟨2026, 1, i + 1⟩ : Date))) ++
  [⟨2026, 2, 1⟩]

/-- Scenario A: seven people, two visits each. -/
def c1aCfg : Config := ⟨[⟨1990, 1990, "all", 2, false, []⟩], 2026, true, c1aHolidays, true⟩

/-- Scenario A roster: seven eligible people. -/
def c1aRows : List Person :=
  (List.range 7).map (fun i => ⟨i, none, some ⟨1990, 0, 1⟩⟩)

set_option maxHeartbeats 8000000 in
/-- Counterexample to C1 as stated.  Scenario B: the only assigned person's
2nd and 3rd visit dates are both March 31, 2026 (February 28 snaps forward
onto the March 31 candidate), so the sequence is not strictly increasing.
Scenario A: the 5th assigned person's first visit date is January 1, 2026 —
the wrapped candidate's 60-day snap window contains no working day, so the
snap falls back to the original date, which is a holiday and fails
`isWorkingDay`. -/
theorem claim_C1_counterexample :
    ((assignedDates (processExcelModel ⟨2026, 9, 12⟩ c1bCfg [c1Person]) 0).getD 1
        ⟨0, 0, 0⟩ = ⟨2026, 2, 31⟩ ∧
      (assignedDates (processExcelModel ⟨2026, 9, 12⟩ c1bCfg [c1Person]) 0).getD 2
        ⟨0, 0, 0⟩ = ⟨2026, 2, 31⟩ ∧
      (assignedDates (processExcelModel ⟨2026, 9, 12⟩ c1bCfg [c1Person]) 0).length = 12) ∧
    ((assignedDates (processExcelModel ⟨2026, 9, 12⟩ c1aCfg c1aRows) 4).getD 0
        ⟨0, 0, 0⟩ = ⟨2026, 0, 1⟩ ∧
      isWorkingDay ⟨2026, 0, 1⟩ c1aCfg.holidays c1aCfg.saturdayWorking = false) := by
  decide

theorem wrapCandidate_valid (f : Date) (hf : f.Valid) (vc Y v : Nat) :
    (wrapCandidate f vc Y v).Valid := by
  obtain ⟨h1, h2, h3⟩ := hf
  have hp1 := daysInMonth_pos (f.year + (f.month + 12 * v / vc) / 12)
    ((f.month + 12 * v / vc) % 12)
  have hp2 := daysInMonth_pos (f.year + (f.month + 12 * v / vc) / 12 - 1)
    ((f.month + 12 * v / vc) % 12)
  unfold wrapCandidate addMonthsClamp setMonthAbs subYearClamp Date.Valid
  dsimp only
  split
  · refine ⟨?_, ?_, ?_⟩ <;> dsimp only <;> omega
  · refine ⟨?_, ?_, ?_⟩ <;> dsimp only <;> omega

/-- Every date produced by the cycle projector is either a working day or
the head of a 60-day window with no working day; the list has exactly
`visitCount` entries and is non-decreasing. -/
theorem cycleDates_spec (f : Date) (hf : f.Valid) (vc Y : Nat) (hol : List Date)
    (sw : Bool) (hvc : 1 ≤ vc) :
    (cycleDates f vc Y hol sw).length = vc ∧
    (cycleDates f vc Y hol sw).Pairwise (fun a b => toSerial a ≤ toSerial b) ∧
    ∀ x ∈ cycleDates f vc Y hol sw,
      isWorkingDay x hol sw = true ∨
        ∀ i : Nat, i < 60 → isWorkingDay (addDays x i) hol sw = false := by
  have hcand : ∀ c ∈ (f :: (if 1 < vc then
      (List.range (vc - 1)).map (fun v0 => wrapCandidate f vc Y (v0 + 1))
    else [])), c.Valid := by
    intro c hc
    rcases List.mem_cons.mp hc with hc | hc
    · rw [hc]; exact hf
    · split at hc
      · rw [List.mem_map] at hc
        obtain ⟨v0, -, heq⟩ := hc
        rw [← heq]
        exact wrapCandidate_valid f hf vc Y (v0 + 1)
      · cases hc
  refine ⟨?_, ?_, ?_⟩
  · simp only [cycleDates, List.length_map, sortDates_length]
    by_cases h : 1 < vc
    · rw [if_pos h]
      simp
      omega
    · rw [if_neg h]
      simp
      omega
  · have hsorted := sortDates_pairwise (f :: (if 1 < vc then
      (List.range (vc - 1)).map (fun v0 => wrapCandidate f vc Y (v0 + 1))
    else []))
    have hmem : ∀ c ∈ sortDates (f :: (if 1 < vc then
        (List.range (vc - 1)).map (fun v0 => wrapCandidate f vc Y (v0 + 1))
      else [])), c.Valid := by
      intro c hc
      exact hcand c ((sortDates_perm _).mem_iff.mp hc)
    show ((sortDates _).map _).Pairwise _
    rw [List.pairwise_map]
    apply hsorted.imp_of_mem
    intro a b ha hb hab
    exact findNextWorkingDay_mono a b (hmem a ha) (hmem b hb) hol sw
      (of_decide_eq_true hab)
  · intro x hx
    simp only [cycleDates, List.mem_map] at hx
    obtain ⟨c, -, heq⟩ := hx
    rcases findNextWorkingDay_cases c hol sw with hw | ⟨hfix, hdead⟩
    · rw [← heq]
      exact Or.inl hw
    · right
      intro i hi
      rw [← heq, hfix]
      exact Bool.not_eq_true _ |>.mp (hdead i hi)

/-- Every date produced by the birthday projector is either a working day
or the head of a dead 60-day window; the list has exactly `visitCount`
entries and is non-decreasing. -/
theorem birthdayDates_spec (now : Date) (vc Y b : Nat) (hol : List Date) (sw : Bool) :
    (birthdayDates now vc Y b hol sw).length = vc ∧
    (birthdayDates now vc Y b hol sw).Pairwise (fun a b => toSerial a ≤ toSerial b) ∧
    ∀ x ∈ birthdayDates now vc Y b hol sw,
      isWorkingDay x hol sw = true ∨
        ∀ i : Nat, i < 60 → isWorkingDay (addDays x i) hol sw = false := by
  refine ⟨?_, ?_, ?_⟩
  · simp [birthdayDates, sortDates_length]
  · exact (sortDates_pairwise _).imp (fun h => of_decide_eq_true h)
  · intro x hx
    have hx2 := (sortDates_perm _).mem_iff.mp hx
    rw [List.mem_map] at hx2
    obtain ⟨v, -, heq⟩ := hx2
    rcases findNextWorkingDay_cases (birthdayVisitDate now Y (12 * v / vc) b) hol sw
      with hw | ⟨hfix, hdead⟩
    · rw [← heq]
      exact Or.inl hw
    · right
      intro i hi
      rw [← heq, hfix]
      exact Bool.not_eq_true _ |>.mp (hdead i hi)

theorem scheduleRange_assigned_spec (now : Date) (cfg : Config) (r : RangeRule)
    (pool : List Person) :
    ∀ pr ∈ (scheduleRange now cfg r pool).assigned,
      pr.2.length = effVisit r ∧
      pr.2.Pairwise (fun a b => toSerial a ≤ toSerial b) ∧
      ∀ x ∈ pr.2, isWorkingDay x cfg.holidays cfg.saturdayWorking = true ∨
        ∀ i : Nat, i < 60 →
          isWorkingDay (addDays x i) cfg.holidays cfg.saturdayWorking = false := by
  intro pr hpr
  unfold scheduleRange at hpr
  split at hpr
  · dsimp only at hpr
    rw [List.mem_map] at hpr
    obtain ⟨p, -, heq⟩ := hpr
    have hspec := birthdayDates_spec now (effVisit r) cfg.targetYear (birthDayOf p)
      cfg.holidays cfg.saturdayWorking
    rw [← heq]
    exact hspec
  · dsimp only at hpr
    obtain ⟨day, hday, heq⟩ := runMonths_spec now cfg (effVisit r)
      (if 1 < effVisit r then distribute pool.length 12 else r.counts)
      (List.range 12) pool pr hpr
    rw [heq]
    exact cycleDates_spec day hday (effVisit r) cfg.targetYear cfg.holidays
      cfg.saturdayWorking (effVisit_pos r)

/-- C1 (amended): for every cohort rule with effective visit count `v` and
every person recorded as assigned in that cohort, the generated visit-date
sequence has length exactly `v`, is NON-DECREASING in calendar order, and
every date in it either satisfies `isWorkingDay` for the run's holiday set
and Saturday flag or heads a 60-day window containing no working day (the
snap's silent fallback).  As literally stated the claim fails on both
counts — sequences need not be strictly increasing and fallback dates need
not be working (see the counterexample theorem). -/
theorem claim_C1_visitSequences (now : Date) (cfg : Config) (rows : List Person) :
    ∀ (rs : List RangeRule) (gs : List (Nat × RangeResult)) (ws : List String),
      processRanges now cfg rows rs = .ok (gs, ws) →
      ∀ g ∈ gs, ∀ pr ∈ g.2.assigned,
        pr.2.length = g.1 ∧
        pr.2.Pairwise (fun a b => toSerial a ≤ toSerial b) ∧
        ∀ x ∈ pr.2, isWorkingDay x cfg.holidays cfg.saturdayWorking = true ∨
          ∀ i : Nat, i < 60 →
            isWorkingDay (addDays x i) cfg.holidays cfg.saturdayWorking = false := by
  intro rs
  induction rs with
  | nil =>
    intro gs ws hok g hg
    simp only [processRanges, Except.ok.injEq, Prod.mk.injEq] at hok
    rw [← hok.1] at hg
    cases hg
  | cons r rest ih =>
    intro gs ws hok g hg
    simp only [processRanges] at hok
    split at hok
    · cases hrec : processRanges now cfg rows rest with
      | error e =>
        rw [hrec] at hok
        cases hok
      | ok p =>
        rw [hrec] at hok
        simp only [Except.ok.injEq, Prod.mk.injEq] at hok
        apply ih p.1 p.2 (by rw [hrec])
        rw [← hok.1] at hg
        exact hg
    · split at hok
      · cases hok
      · cases hrec : processRanges now cfg rows rest with
        | error e =>
          rw [hrec] at hok
          cases hok
        | ok p =>
          rw [hrec] at hok
          simp only [Except.ok.injEq, Prod.mk.injEq] at hok
          rw [← hok.1] at hg
          rcases List.mem_cons.mp hg with hg | hg
          · rw [hg]
            exact scheduleRange_assigned_spec now cfg r (eligibleFor cfg r rows)
          · exact ih p.1 p.2 (by rw [hrec]) g hg

/-- The one-person manual rule of the C1 witness run. -/
def c1wRule : RangeRule := ⟨1990, 1990, "all", 1, false, [1, 0, 0, 0, 0, 0, 0, 0, 0, 0, 0, 0]⟩

/-- The C1 witness configuration. -/
def c1wCfg : Config := ⟨[c1wRule], 2026, true, [], true⟩

/-- The C1 witness roster. -/
def c1wRows : List Person := [⟨1, none, some ⟨1990, 0, 1⟩⟩]

/-- Witness for the amended C1: in the one-person run the assigned
sequence `[Jan 1, 2026]` has length 1, is non-decreasing, and every date
is working or heads a dead window. -/
theorem claim_C1_visitSequences_witness :
    [(⟨2026, 0, 1⟩ : Date)].length = 1 ∧
    [(⟨2026, 0, 1⟩ : Date)].Pairwise (fun a b => toSerial a ≤ toSerial b) ∧
    ∀ x ∈ [(⟨2026, 0, 1⟩ : Date)],
      isWorkingDay x c1wCfg.holidays c1wCfg.saturdayWorking = true ∨
        ∀ i : Nat, i < 60 →
          isWorkingDay (addDays x i) c1wCfg.holidays c1wCfg.saturdayWorking = false :=
  claim_C1_visitSequences ⟨2026, 9, 12⟩ c1wCfg c1wRows c1wCfg.ranges
    [(1, { assigned := [(⟨1, none, some ⟨1990, 0, 1⟩⟩, [⟨2026, 0, 1⟩])], unplanned := [] })]
    [] (by decide)
    (1, { assigned := [(⟨1, none, some ⟨1990, 0, 1⟩⟩, [⟨2026, 0, 1⟩])], unplanned := [] })
    (by simp)
    (⟨1, none, some ⟨1990, 0, 1⟩⟩, [⟨2026, 0, 1⟩])
    (by simp)

/- ### Claim C8: consolidation -/

theorem consolidateAux_enumFrom (maxV : Nat) :
    ∀ (l : List (Nat × ORow)) (n : Nat),
      consolidateAux maxV n l =
        (l.enumFrom n).map (fun p => { renameRow p.2.1 maxV p.2.2 with id := p.1 }) := by
  intro l
  induction l with
  | nil => intro n; rfl
  | cons g rest ih =>
    intro n
    simp only [consolidateAux, List.enumFrom, List.map_cons, ih]

theorem enumFrom_map_eq (f : α → β) :
    ∀ (l : List α) (n : Nat),
      (l.map f).enumFrom n = (l.enumFrom n).map (fun p => (p.1, f p.2)) := by
  intro l
  induction l with
  | nil => intro n; rfl
  | cons a as ih =>
    intro n
    simp only [List.map_cons, List.enumFrom, ih]

theorem consolidate_eq (groups : List (Nat × List ORow)) (maxV : Nat) :
    consolidate groups maxV =
      ((groups.flatMap (fun g => g.2.map (fun r => renameRow g.1 maxV r))).enumFrom 1).map
        (fun p => { p.2 with id := p.1 }) := by
  unfold consolidate
  rw [consolidateAux_enumFrom]
  have htag : (groups.flatMap (fun g => g.2.map (fun r => (g.1, r)))).map
        (fun q => renameRow q.1 maxV q.2) =
      groups.flatMap (fun g => g.2.map (fun r => renameRow g.1 maxV r)) := by
    rw [List.map_flatMap]
    simp only [List.map_map]
    rfl
  rw [← htag, enumFrom_map_eq, List.map_map]
  apply List.map_congr_left
  intro p hp
  rfl

theorem lookup_renamed_fields (l : List (String × Date))
    (hkeys : ∀ kv ∈ l, kv.1 = "Tashrif sanasi") :
    (l.map (fun kv =>
        (if kv.1 = "Tashrif sanasi" then "1-tashrif sanasi" else kv.1, kv.2))).lookup
        "1-tashrif sanasi" = l.lookup "Tashrif sanasi" ∧
    ∀ k : String, ¬k = "1-tashrif sanasi" →
      (l.map (fun kv =>
        (if kv.1 = "Tashrif sanasi" then "1-tashrif sanasi" else kv.1, kv.2))).lookup
        k = none := by
  induction l with
  | nil => exact ⟨rfl, fun k hk => rfl⟩
  | cons kv rest ih =>
    have hk := hkeys kv (List.mem_cons_self kv rest)
    obtain ⟨ih1, ih2⟩ := ih (fun kv2 h2 => hkeys kv2 (List.mem_cons_of_mem kv h2))
    constructor
    · simp only [List.map_cons, List.lookup, hk, eq_self_iff_true, if_true]
      rw [show (("1-tashrif sanasi" : String) == "1-tashrif sanasi") = true from by decide]
      rw [show (("Tashrif sanasi" : String) == "Tashrif sanasi") = true from by decide]
    · intro k hknot
      simp only [List.map_cons, List.lookup, hk, eq_self_iff_true, if_true]
      rw [show (k == "1-tashrif sanasi") = false from by
        rcases hb : (k == "1-tashrif sanasi") with _ | _
        · rfl
        · exact absurd (eq_of_beq hb) hknot]
      exact ih2 k hknot

theorem renameRow_fields (vc maxV : Nat) (r : ORow) (hvc : vc = 1) (hmax : 1 < maxV) :
    (renameRow vc maxV r).fields = r.fields.map (fun kv =>
      (if kv.1 = "Tashrif sanasi" then "1-tashrif sanasi" else kv.1, kv.2)) := by
  unfold renameRow
  rw [if_pos (by simp [hvc, hmax])]

theorem renameRow_id (vc maxV : Nat) (r : ORow) (h : ¬(vc = 1 ∧ 1 < maxV)) :
    renameRow vc maxV r = r := by
  unfold renameRow
  rw [if_neg (by simp only [Bool.and_eq_true, decide_eq_true_eq, beq_iff_eq]; tauto)]

theorem rangeORows_keys (vc : Nat) (res : RangeResult) :
    ∀ orow ∈ rangeORows vc res, ∀ kv ∈ orow.fields, kv.1 ∈ visitKeys vc := by
  intro orow ho kv hkv
  unfold rangeORows at ho
  rw [List.mem_append] at ho
  rcases ho with ho | ho
  · rw [List.mem_map] at ho
    obtain ⟨pr, -, heq⟩ := ho
    rw [← heq] at hkv
    dsimp only at hkv
    rcases kv with ⟨k, d⟩
    exact (List.of_mem_zip hkv).1
  · rw [List.mem_map] at ho
    obtain ⟨p, -, heq⟩ := ho
    rw [← heq] at hkv
    cases hkv

/-- C8: the consolidated plan is the concatenation of all cohorts' rows in
cohort-rule order (each cohort internally assigned-then-unplanned, as
`rangeORows` lays them out), with the identifier column renumbered 1, 2,
3, … by position; a row of a `visitCount = 1` cohort has its single
`"Tashrif sanasi"` field renamed to the `"1-tashrif sanasi"` column exactly
when the maximum visit count exceeds 1 (all other visit columns staying
unset for that row, since such rows carry no other field keys); rows of
other cohorts are left unchanged. -/
theorem claim_C8_consolidation :
    (∀ (groups : List (Nat × List ORow)) (maxV : Nat),
      consolidate groups maxV =
        ((groups.flatMap (fun g => g.2.map (fun r => renameRow g.1 maxV r))).enumFrom
          1).map (fun p => { p.2 with id := p.1 })) ∧
    (∀ (maxV : Nat) (r : ORow), 1 < maxV →
      (∀ kv ∈ r.fields, kv.1 = "Tashrif sanasi") →
      (renameRow 1 maxV r).fields.lookup "1-tashrif sanasi" =
          r.fields.lookup "Tashrif sanasi" ∧
        ∀ k : String, ¬k = "1-tashrif sanasi" →
          (renameRow 1 maxV r).fields.lookup k = none) ∧
    (∀ (vc maxV : Nat) (r : ORow), ¬(vc = 1 ∧ 1 < maxV) → renameRow vc maxV r = r) ∧
    (∀ (now : Date) (cfg : Config) (rows : List Person) (out : RunOutput),
      processExcelModel now cfg rows = .ok out →
      out.consolidated =
        consolidate (out.groups.map (fun g => (g.1, rangeORows g.1 g.2)))
          (maxVisits cfg.ranges) ∧
      ∀ g ∈ out.groups, ∀ orow ∈ rangeORows g.1 g.2, ∀ kv ∈ orow.fields,
        kv.1 ∈ visitKeys g.1) := by
  refine ⟨consolidate_eq, ?_, renameRow_id, ?_⟩
  · intro maxV r hmax hkeys
    rw [renameRow_fields 1 maxV r rfl hmax]
    exact lookup_renamed_fields r.fields hkeys
  · intro now cfg rows out hok
    unfold processExcelModel at hok
    constructor
    · cases hrec : processRanges now cfg rows cfg.ranges with
      | error e =>
        rw [hrec] at hok
        cases hok
      | ok p =>
        rw [hrec] at hok
        simp only [Except.ok.injEq] at hok
        rw [← hok]
    · intro g hg orow ho kv hkv
      exact rangeORows_keys g.1 g.2 orow ho kv hkv

/-- Witness for C8: a one-field single-visit row under a global schema of 2
visits has its date moved to the `"1-tashrif sanasi"` column and no other
column set. -/
theorem claim_C8_consolidation_witness :
    (renameRow 1 2 ⟨⟨0, none, none⟩, [("Tashrif sanasi", ⟨2026, 0, 5⟩)], false, 0⟩).fields.lookup
        "1-tashrif sanasi" =
      ([("Tashrif sanasi", (⟨2026, 0, 5⟩ : Date))].lookup "Tashrif sanasi") ∧
    ∀ k : String, ¬k = "1-tashrif sanasi" →
      (renameRow 1 2
        ⟨⟨0, none, none⟩, [("Tashrif sanasi", ⟨2026, 0, 5⟩)], false, 0⟩).fields.lookup
        k = none :=
  claim_C8_consolidation.2.1 2
    ⟨⟨0, none, none⟩, [("Tashrif sanasi", ⟨2026, 0, 5⟩)], false, 0⟩
    (by decide) (by decide)
